import Mathlib

/-!
Verification of the wiki-simulator content pipeline.

Strings are modelled as `List Char`.  JavaScript string primitives used by the
source (`trim`, `replace(/\s+/g, "_")`, `split`, `join`, truthiness of strings)
are embedded as explicit recursive functions below; each slug/registry/cache
operation is then a direct transcription of the corresponding JavaScript
function, named after it.
-/

/-- The whitespace characters recognised by the JavaScript `\s` class and
`String.prototype.trim` (restricted to the ASCII range used by the code). -/
def jsWhitespace (c : Char) : Bool :=
  c = ' ' || c = '\t' || c = '\n' || c = '\r' || c = '\x0b' || c = '\x0c'

/-- The JavaScript `\w` word-character class: `[A-Za-z0-9_]`. -/
def isWordChar (c : Char) : Bool :=
  c.isAlpha || c.isDigit || c = '_'

/-- `slug.replace(/_/g, " ")` acts pointwise with this character map. -/
def underscoreToSpace (c : Char) : Char :=
  if c = '_' then ' ' else c

/-- JavaScript `String.prototype.trim`: drop leading and trailing whitespace. -/
def jsTrim (s : List Char) : List Char :=
  (((s.dropWhile jsWhitespace).reverse).dropWhile jsWhitespace).reverse

/-- JavaScript `str.replace(/\s+/g, r)` for a one-character replacement `r`:
every maximal run of whitespace becomes the single character `r`.  The flag
records whether the scanner is currently inside a whitespace run. -/
def collapseWS (r : Char) : Bool → List Char → List Char
  | _, [] => []
  | inRun, c :: cs =>
    if jsWhitespace c then
      if inRun then collapseWS r true cs else r :: collapseWS r true cs
    else c :: collapseWS r false cs

/-- JavaScript `str.split(sep)` for a one-character separator: empty segments
are kept, and splitting the empty string yields `[[]]`. -/
def splitOnChar (sep : Char) : List Char → List (List Char)
  | [] => [[]]
  | c :: cs =>
    match splitOnChar sep cs with
    | [] => [[c]]
    | w :: ws => if c = sep then [] :: w :: ws else (c :: w) :: ws

/-- JavaScript `Array.prototype.join` with a one-character separator. -/
def joinWith (sep : Char) : List (List Char) → List Char
  | [] => []
  | [w] => w
  | w :: ws => w ++ sep :: joinWith sep ws

namespace Slugs

/-- `titleToWikipediaSlug` (case-preserving variant):
`title.trim().replace(/\s+/g, "_")`. -/
def titleToWikipediaSlug (title : List Char) : List Char :=
  collapseWS '_' false (jsTrim title)

/-- `wikipediaSlugToTitle` (case-preserving variant): `slug.replace(/_/g, " ")`. -/
def wikipediaSlugToTitle (slug : List Char) : List Char :=
  slug.map underscoreToSpace

/-- The slug-normalisation pass the page route applies to an incoming slug:
decode it to a title, then re-encode it. -/
def slugNormalize (slug : List Char) : List Char :=
  titleToWikipediaSlug (wikipediaSlugToTitle slug)

end Slugs

namespace SlugsTC

/-- `titleToWikipediaSlug` (title-casing variant):
`title.trim().replace(/\s+/g, "_").replace(/[^\w_]/g, "")`. -/
def titleToWikipediaSlug (title : List Char) : List Char :=
  (collapseWS '_' false (jsTrim title)).filter isWordChar

/-- One word of the title-casing decoder:
`word.charAt(0).toUpperCase() + word.slice(1).toLowerCase()`. -/
def titleCaseWord : List Char → List Char
  | [] => []
  | c :: cs => c.toUpper :: cs.map Char.toLower

/-- `wikipediaSlugToTitle` (title-casing variant):
`slug.split("_").map(titleCase).join(" ")`. -/
def wikipediaSlugToTitle (slug : List Char) : List Char :=
  joinWith ' ' ((splitOnChar '_' slug).map titleCaseWord)

/-- Slug normalisation through the title-casing codec. -/
def slugNormalize (slug : List Char) : List Char :=
  titleToWikipediaSlug (wikipediaSlugToTitle slug)

end SlugsTC

/-! ### Structural lemmas about the embedded string primitives -/

theorem collapseWS_eq_of_no_ws (r : Char) (b : Bool) (l : List Char)
    (h : ∀ c ∈ l, jsWhitespace c = false) : collapseWS r b l = l := by
  induction l generalizing b with
  | nil => rfl
  | cons c cs ih =>
    have hc : jsWhitespace c = false := h c (List.mem_cons_self c cs)
    simp [collapseWS, hc, ih false (fun d hd => h d (List.mem_cons_of_mem c hd))]

theorem collapseWS_append_of_no_ws (r : Char) (b : Bool) (w rest : List Char)
    (hw : ∀ c ∈ w, jsWhitespace c = false) (hne : w ≠ []) :
    collapseWS r b (w ++ rest) = w ++ collapseWS r false rest := by
  induction w generalizing b with
  | nil => exact absurd rfl hne
  | cons c cs ih =>
    have hc : jsWhitespace c = false := hw c (List.mem_cons_self c cs)
    rcases cs with _ | ⟨d, ds⟩
    · simp [collapseWS, hc]
    · have := ih (b := false)
        (fun x hx => hw x (List.mem_cons_of_mem c hx)) (by simp)
      simp [collapseWS, hc] at this ⊢
      exact this

theorem collapseWS_cons_not_ws (r : Char) (b : Bool) (c : Char) (cs : List Char)
    (hc : jsWhitespace c = false) :
    collapseWS r b (c :: cs) = c :: collapseWS r false cs := by
  simp [collapseWS, hc]

/-- Collapsing a space run to a single space and then collapsing again to `r`
is the same as collapsing once to `r`. -/
theorem collapseWS_collapseWS_space (r : Char) (l : List Char) (b : Bool) :
    collapseWS r b (collapseWS ' ' b l) = collapseWS r b l := by
  induction l generalizing b with
  | nil => rfl
  | cons c cs ih =>
    by_cases hc : jsWhitespace c = true
    · cases b with
      | true => simp [collapseWS, hc, ih true]
      | false =>
        have hsp : jsWhitespace ' ' = true := by decide
        simp [collapseWS, hc, hsp, ih true]
    · have hc' : jsWhitespace c = false := by
        cases h : jsWhitespace c
        · rfl
        · exact absurd h hc
      simp [collapseWS, hc', ih false]

theorem map_underscoreToSpace_collapseWS (b : Bool) (l : List Char)
    (h : ∀ c ∈ l, c ≠ '_') :
    (collapseWS '_' b l).map underscoreToSpace = collapseWS ' ' b l := by
  induction l generalizing b with
  | nil => rfl
  | cons c cs ih =>
    have hc : c ≠ '_' := h c (List.mem_cons_self c cs)
    have ht : ∀ d ∈ cs, d ≠ '_' := fun d hd => h d (List.mem_cons_of_mem c hd)
    by_cases hws : jsWhitespace c = true
    · cases b with
      | true => simp [collapseWS, hws, ih true ht]
      | false => simp [collapseWS, hws, ih true ht, underscoreToSpace]
    · have hws' : jsWhitespace c = false := by
        cases h' : jsWhitespace c
        · rfl
        · exact absurd h' hws
      simp [collapseWS, hws', ih false ht, underscoreToSpace, hc]

theorem head?_dropWhile_not (p : Char → Bool) (l : List Char) (c : Char)
    (h : (l.dropWhile p).head? = some c) : p c = false := by
  induction l with
  | nil => simp [List.dropWhile] at h
  | cons a as ih =>
    by_cases ha : p a = true
    · rw [List.dropWhile_cons, if_pos ha] at h
      exact ih h
    · have ha' : p a = false := by
        cases h' : p a
        · rfl
        · exact absurd h' ha
      rw [List.dropWhile_cons, if_neg (by simp [ha'])] at h
      simp at h
      exact h ▸ ha'

theorem dropWhile_eq_self_of_head (p : Char → Bool) (l : List Char)
    (h : ∀ c, l.head? = some c → p c = false) : l.dropWhile p = l := by
  cases l with
  | nil => rfl
  | cons a as =>
    have := h a rfl
    rw [List.dropWhile_cons, if_neg (by simp [this])]

theorem getLast?_append_of_getLast? {l₁ l₂ : List Char} {c : Char}
    (h : l₂.getLast? = some c) : (l₁ ++ l₂).getLast? = some c := by
  rw [List.getLast?_append, h]
  rfl

theorem getLast?_cons_of_getLast? (a : Char) {l : List Char} {c : Char}
    (h : l.getLast? = some c) : (a :: l).getLast? = some c := by
  cases l with
  | nil => simp at h
  | cons b bs => rw [List.getLast?_cons_cons, h]

theorem getLast?_tail_of_cons {a : Char} {l : List Char} {c : Char}
    (h : (a :: l).getLast? = some c) (hne : l ≠ []) : l.getLast? = some c := by
  cases l with
  | nil => exact absurd rfl hne
  | cons b bs => rw [List.getLast?_cons_cons] at h; exact h

/-- The last character of the input survives whitespace collapsing when it is
not itself whitespace. -/
theorem collapseWS_getLast? (r : Char) (b : Bool) (l : List Char) (c : Char)
    (h : l.getLast? = some c) (hc : jsWhitespace c = false) :
    (collapseWS r b l).getLast? = some c := by
  induction l generalizing b with
  | nil => simp at h
  | cons a as ih =>
    cases as with
    | nil =>
      simp at h
      subst h
      simp [collapseWS, hc]
    | cons a' as' =>
      have htail : (a' :: as').getLast? = some c :=
        getLast?_tail_of_cons h (by simp)
      by_cases hws : jsWhitespace a = true
      · cases b with
        | true =>
          simp only [collapseWS, hws, if_pos]
          exact ih true htail
        | false =>
          simp only [collapseWS, hws, if_pos, Bool.false_eq_true, if_neg]
          exact getLast?_cons_of_getLast? r (ih true htail)
      · have hws' : jsWhitespace a = false := by
          cases h' : jsWhitespace a
          · rfl
          · exact absurd h' hws
        rw [collapseWS_cons_not_ws r b a _ hws']
        exact getLast?_cons_of_getLast? a (ih false htail)

theorem jsTrim_subset (l : List Char) : jsTrim l ⊆ l := by
  intro c hc
  unfold jsTrim at hc
  rw [List.mem_reverse] at hc
  have h1 := (List.dropWhile_suffix (l := ((l.dropWhile jsWhitespace).reverse))
    (p := jsWhitespace)).subset hc
  rw [List.mem_reverse] at h1
  exact (List.dropWhile_suffix (p := jsWhitespace)).subset h1

theorem jsTrim_head? (l : List Char) (c : Char)
    (h : (jsTrim l).head? = some c) : jsWhitespace c = false := by
  unfold jsTrim at h
  rw [List.head?_reverse] at h
  set u : List Char := l.dropWhile jsWhitespace with hu
  set v : List Char := u.reverse.dropWhile jsWhitespace with hv
  have hvne : v ≠ [] := by
    intro hnil
    rw [hnil] at h
    simp at h
  obtain ⟨pre, hpre⟩ := List.dropWhile_suffix (l := u.reverse) (p := jsWhitespace)
  have hlast : u.reverse.getLast? = some c := by
    rw [← hpre]
    exact getLast?_append_of_getLast? h
  rw [List.getLast?_reverse] at hlast
  exact head?_dropWhile_not jsWhitespace l c hlast

theorem jsTrim_getLast? (l : List Char) (c : Char)
    (h : (jsTrim l).getLast? = some c) : jsWhitespace c = false := by
  unfold jsTrim at h
  rw [List.getLast?_reverse] at h
  exact head?_dropWhile_not jsWhitespace _ c h

theorem jsTrim_eq_self_of (l : List Char)
    (h1 : ∀ c, l.head? = some c → jsWhitespace c = false)
    (h2 : ∀ c, l.getLast? = some c → jsWhitespace c = false) : jsTrim l = l := by
  unfold jsTrim
  rw [dropWhile_eq_self_of_head jsWhitespace l h1]
  rw [dropWhile_eq_self_of_head jsWhitespace l.reverse
    (fun c hc => h2 c (by rwa [List.head?_reverse] at hc))]
  exact List.reverse_reverse l

theorem underscoreToSpace_ne_underscore (c : Char) :
    underscoreToSpace c ≠ '_' := by
  unfold underscoreToSpace
  by_cases h : c = '_'
  · simp [h]
  · simp [h]

/-- The case-preserving slug normalisation is idempotent after one pass. -/
theorem slugNormalize_slugNormalize (s : List Char) :
    Slugs.slugNormalize (Slugs.slugNormalize s) = Slugs.slugNormalize s := by
  unfold Slugs.slugNormalize Slugs.titleToWikipediaSlug Slugs.wikipediaSlugToTitle
  set t := s.map underscoreToSpace with ht
  have htno : ∀ c ∈ jsTrim t, c ≠ '_' := by
    intro c hc
    have hmem : c ∈ t := jsTrim_subset t hc
    rw [ht] at hmem
    obtain ⟨a, _, rfl⟩ := List.mem_map.mp hmem
    exact underscoreToSpace_ne_underscore a
  rw [map_underscoreToSpace_collapseWS false (jsTrim t) htno]
  have hy : jsTrim (collapseWS ' ' false (jsTrim t)) =
      collapseWS ' ' false (jsTrim t) := by
    apply jsTrim_eq_self_of
    · intro c hc
      cases hz : jsTrim t with
      | nil => rw [hz] at hc; simp [collapseWS] at hc
      | cons a as =>
        have ha : jsWhitespace a = false := jsTrim_head? t a (by rw [hz]; rfl)
        rw [hz, collapseWS_cons_not_ws ' ' false a as ha] at hc
        simp at hc
        rw [← hc]
        exact ha
    · intro c hc
      cases hz : jsTrim t with
      | nil => rw [hz] at hc; simp [collapseWS] at hc
      | cons a as =>
        have hsome : ∃ d, (jsTrim t).getLast? = some d := by
          rw [hz]
          exact Option.isSome_iff_exists.mp (by simp)
        obtain ⟨d, hd⟩ := hsome
        have hdws : jsWhitespace d = false := jsTrim_getLast? t d hd
        have := collapseWS_getLast? ' ' false (jsTrim t) d hd hdws
        rw [hc] at this
        simp at this
        rw [this]
        exact hdws
  rw [hy]
  exact collapseWS_collapseWS_space '_' (jsTrim t) false

/-- C4 (counterexample): for the title-casing slug codec, the normalisation
`titleToWikipediaSlug ∘ wikipediaSlugToTitle` is not idempotent after one
pass: on the slug "a_!b" one pass yields "A_b" but a second pass yields
"A_B". -/
theorem c4_titleCasing_not_idempotent :
    SlugsTC.slugNormalize (SlugsTC.slugNormalize ('a' :: '_' :: '!' :: 'b' :: [])) ≠
      SlugsTC.slugNormalize ('a' :: '_' :: '!' :: 'b' :: []) := by
  decide

/-- C4 (amended): for the case-preserving slug codec,
`f = titleToWikipediaSlug ∘ wikipediaSlugToTitle` satisfies `f (f s) = f s`
for every slug `s`, and the title-side composite
`wikipediaSlugToTitle (titleToWikipediaSlug (wikipediaSlugToTitle s))` is
stable under a further decode–encode round trip.  The title-casing codec does
not satisfy this property (see the counterexample). -/
theorem c4_slug_normalization_idempotent_casePreserving :
    (∀ s : List Char,
      Slugs.slugNormalize (Slugs.slugNormalize s) = Slugs.slugNormalize s) ∧
    (∀ s : List Char,
      Slugs.wikipediaSlugToTitle (Slugs.titleToWikipediaSlug
        (Slugs.wikipediaSlugToTitle (Slugs.titleToWikipediaSlug
          (Slugs.wikipediaSlugToTitle s)))) =
      Slugs.wikipediaSlugToTitle (Slugs.titleToWikipediaSlug
        (Slugs.wikipediaSlugToTitle s))) := by
  refine ⟨slugNormalize_slugNormalize, fun s => ?_⟩
  exact congrArg Slugs.wikipediaSlugToTitle (slugNormalize_slugNormalize s)

/-! ### Lemmas for the letters-and-single-spaces round trip -/

theorem mem_of_head? {l : List Char} {c : Char} (h : l.head? = some c) : c ∈ l := by
  cases l with
  | nil => simp at h
  | cons a as =>
    simp at h
    subst h
    exact List.mem_cons_self a as

theorem alpha_not_ws (c : Char) (h : c.isAlpha = true) : jsWhitespace c = false := by
  have h1 : c ≠ ' ' := by intro e; rw [e] at h; exact absurd h (by decide)
  have h2 : c ≠ '\t' := by intro e; rw [e] at h; exact absurd h (by decide)
  have h3 : c ≠ '\n' := by intro e; rw [e] at h; exact absurd h (by decide)
  have h4 : c ≠ '\r' := by intro e; rw [e] at h; exact absurd h (by decide)
  have h5 : c ≠ '\x0b' := by intro e; rw [e] at h; exact absurd h (by decide)
  have h6 : c ≠ '\x0c' := by intro e; rw [e] at h; exact absurd h (by decide)
  simp [jsWhitespace, h1, h2, h3, h4, h5, h6]

theorem alpha_ne_underscore (c : Char) (h : c.isAlpha = true) : c ≠ '_' := by
  intro h1
  rw [h1] at h
  exact absurd h (by decide)

theorem alpha_isWordChar (c : Char) (h : c.isAlpha = true) : isWordChar c = true := by
  simp [isWordChar, h]

theorem head?_joinWith (sep : Char) (w : List Char) (ws : List (List Char))
    (hne : w ≠ []) : (joinWith sep (w :: ws)).head? = w.head? := by
  cases w with
  | nil => exact absurd rfl hne
  | cons a as => cases ws <;> rfl

theorem joinWith_ne_nil (sep : Char) (w : List Char) (ws : List (List Char))
    (hne : w ≠ []) : joinWith sep (w :: ws) ≠ [] := by
  cases w with
  | nil => exact absurd rfl hne
  | cons a as => cases ws <;> simp [joinWith]

theorem getLast?_cons_ne_none (a : Char) (l : List Char) :
    (a :: l).getLast? ≠ none := by
  induction l generalizing a with
  | nil => simp
  | cons b bs ih =>
    rw [List.getLast?_cons_cons]
    exact ih b

theorem getLast?_joinWith_mem (sep : Char) (ws : List (List Char))
    (hne : ∀ w ∈ ws, w ≠ []) (c : Char)
    (h : (joinWith sep ws).getLast? = some c) : ∃ w ∈ ws, w.getLast? = some c := by
  induction ws with
  | nil => simp [joinWith] at h
  | cons w ws ih =>
    cases ws with
    | nil => exact ⟨w, by simp, h⟩
    | cons w' ws' =>
      have hrest : joinWith sep (w' :: ws') ≠ [] :=
        joinWith_ne_nil sep w' ws' (hne w' (by simp))
      have hstep : (joinWith sep (w :: w' :: ws')).getLast? =
          (joinWith sep (w' :: ws')).getLast? := by
        show (w ++ sep :: joinWith sep (w' :: ws')).getLast? = _
        rw [List.getLast?_append]
        cases hj : joinWith sep (w' :: ws') with
        | nil => exact absurd hj hrest
        | cons x xs =>
          rw [List.getLast?_cons_cons]
          cases hX : (x :: xs).getLast? with
          | none => exact absurd hX (getLast?_cons_ne_none x xs)
          | some d => rfl
      rw [hstep] at h
      obtain ⟨w'', hw'', hlast⟩ := ih (fun x hx => hne x (List.mem_cons_of_mem w hx)) h
      exact ⟨w'', List.mem_cons_of_mem w hw'', hlast⟩

theorem collapseWS_true_eq_false_of_head (r : Char) (l : List Char)
    (h : ∀ c, l.head? = some c → jsWhitespace c = false) :
    collapseWS r true l = collapseWS r false l := by
  cases l with
  | nil => rfl
  | cons a as =>
    have := h a rfl
    rw [collapseWS_cons_not_ws r true a as this,
      collapseWS_cons_not_ws r false a as this]

theorem collapseWS_joinWith (r : Char) (ws : List (List Char))
    (h : ∀ w ∈ ws, w ≠ [] ∧ ∀ c ∈ w, jsWhitespace c = false) :
    collapseWS r false (joinWith ' ' ws) = joinWith r ws := by
  induction ws with
  | nil => rfl
  | cons w ws ih =>
    cases ws with
    | nil =>
      exact collapseWS_eq_of_no_ws r false w (h w (by simp)).2
    | cons w' ws' =>
      have hw := h w (by simp)
      have hrest : ∀ x ∈ w' :: ws', x ≠ [] ∧ ∀ c ∈ x, jsWhitespace c = false :=
        fun x hx => h x (List.mem_cons_of_mem w hx)
      have hw' := hrest w' (by simp)
      show collapseWS r false (w ++ ' ' :: joinWith ' ' (w' :: ws')) = _
      rw [collapseWS_append_of_no_ws r false w _ hw.2 hw.1]
      have hsp : jsWhitespace ' ' = true := by decide
      have hhd : ∀ c, (joinWith ' ' (w' :: ws')).head? = some c →
          jsWhitespace c = false := by
        intro c hc
        rw [head?_joinWith ' ' w' ws' hw'.1] at hc
        exact hw'.2 c (mem_of_head? hc)
      calc w ++ collapseWS r false (' ' :: joinWith ' ' (w' :: ws'))
          = w ++ r :: collapseWS r true (joinWith ' ' (w' :: ws')) := by
            simp [collapseWS, hsp]
        _ = w ++ r :: collapseWS r false (joinWith ' ' (w' :: ws')) := by
            rw [collapseWS_true_eq_false_of_head r _ hhd]
        _ = w ++ r :: joinWith r (w' :: ws') := by rw [ih hrest]
        _ = joinWith r (w :: w' :: ws') := rfl

theorem map_joinWith (f : Char → Char) (sep : Char) (ws : List (List Char)) :
    (joinWith sep ws).map f = joinWith (f sep) (ws.map (List.map f)) := by
  induction ws with
  | nil => rfl
  | cons w ws ih =>
    cases ws with
    | nil => rfl
    | cons w' ws' =>
      show (w ++ sep :: joinWith sep (w' :: ws')).map f = _
      rw [List.map_append, List.map_cons, ih]
      rfl

theorem mem_joinWith (sep : Char) (ws : List (List Char)) (c : Char)
    (h : c ∈ joinWith sep ws) : c = sep ∨ ∃ w ∈ ws, c ∈ w := by
  induction ws with
  | nil => simp [joinWith] at h
  | cons w ws ih =>
    cases ws with
    | nil => exact Or.inr ⟨w, by simp, h⟩
    | cons w' ws' =>
      rcases List.mem_append.mp h with hw | hw
      · exact Or.inr ⟨w, by simp, hw⟩
      · rcases List.mem_cons.mp hw with hc | hc
        · exact Or.inl hc
        · rcases ih hc with hc' | ⟨x, hx, hcx⟩
          · exact Or.inl hc'
          · exact Or.inr ⟨x, List.mem_cons_of_mem w hx, hcx⟩

theorem splitOnChar_ne_nil (sep : Char) (l : List Char) :
    splitOnChar sep l ≠ [] := by
  cases l with
  | nil => simp [splitOnChar]
  | cons c cs =>
    unfold splitOnChar
    cases splitOnChar sep cs with
    | nil => simp
    | cons w ws =>
      by_cases hc : c = sep
      · simp [hc]
      · simp [hc]

theorem splitOnChar_no_sep (sep : Char) (w : List Char)
    (h : ∀ c ∈ w, c ≠ sep) : splitOnChar sep w = [w] := by
  induction w with
  | nil => rfl
  | cons c cs ih =>
    have hc : c ≠ sep := h c (List.mem_cons_self c cs)
    have := ih (fun d hd => h d (List.mem_cons_of_mem c hd))
    unfold splitOnChar
    rw [this]
    simp [hc]

theorem splitOnChar_append_word (sep : Char) (w l : List Char)
    (h : ∀ c ∈ w, c ≠ sep) (x : List Char) (xs : List (List Char))
    (hl : splitOnChar sep l = x :: xs) :
    splitOnChar sep (w ++ l) = (w ++ x) :: xs := by
  induction w with
  | nil => simpa using hl
  | cons c cs ih =>
    have hc : c ≠ sep := h c (List.mem_cons_self c cs)
    have := ih (fun d hd => h d (List.mem_cons_of_mem c hd))
    show splitOnChar sep (c :: (cs ++ l)) = _
    unfold splitOnChar
    rw [this]
    simp [hc]

theorem splitOnChar_joinWith (sep : Char) (ws : List (List Char))
    (hne : ws ≠ []) (h : ∀ w ∈ ws, ∀ c ∈ w, c ≠ sep) :
    splitOnChar sep (joinWith sep ws) = ws := by
  induction ws with
  | nil => exact absurd rfl hne
  | cons w ws ih =>
    cases ws with
    | nil => exact splitOnChar_no_sep sep w (h w (by simp))
    | cons w' ws' =>
      have hrest : splitOnChar sep (joinWith sep (w' :: ws')) = w' :: ws' :=
        ih (by simp) (fun x hx => h x (List.mem_cons_of_mem w hx))
      have hsep : splitOnChar sep (sep :: joinWith sep (w' :: ws')) =
          [] :: w' :: ws' := by
        unfold splitOnChar
        rw [hrest]
        simp
      have := splitOnChar_append_word sep w (sep :: joinWith sep (w' :: ws'))
        (h w (by simp)) [] (w' :: ws') hsep
      simpa using this

theorem titleCaseWord_length (w : List Char) :
    (SlugsTC.titleCaseWord w).length = w.length := by
  cases w with
  | nil => rfl
  | cons c cs => simp [SlugsTC.titleCaseWord]

theorem titleCaseWord_caseRel (w : List Char) :
    List.Forall₂ (fun a b => a = b ∨ a = b.toUpper ∨ a = b.toLower)
      (SlugsTC.titleCaseWord w) w := by
  cases w with
  | nil => exact List.Forall₂.nil
  | cons c cs =>
    refine List.Forall₂.cons (Or.inr (Or.inl rfl)) ?_
    induction cs with
    | nil => exact List.Forall₂.nil
    | cons d ds ih =>
      exact List.Forall₂.cons (Or.inr (Or.inr rfl)) ih

theorem map_underscoreToSpace_eq_self (w : List Char)
    (h : ∀ c ∈ w, c ≠ '_') : w.map underscoreToSpace = w := by
  induction w with
  | nil => rfl
  | cons c cs ih =>
    have hc : c ≠ '_' := h c (List.mem_cons_self c cs)
    simp [underscoreToSpace, hc, ih (fun d hd => h d (List.mem_cons_of_mem c hd))]

theorem jsTrim_joinWith_alpha (ws : List (List Char)) (hne : ws ≠ [])
    (hw : ∀ w ∈ ws, w ≠ [] ∧ ∀ c ∈ w, c.isAlpha = true) :
    jsTrim (joinWith ' ' ws) = joinWith ' ' ws := by
  apply jsTrim_eq_self_of
  · intro c hc
    cases ws with
    | nil => exact absurd rfl hne
    | cons w ws' =>
      rw [head?_joinWith ' ' w ws' (hw w (by simp)).1] at hc
      exact alpha_not_ws c ((hw w (by simp)).2 c (mem_of_head? hc))
  · intro c hc
    obtain ⟨w, hwmem, hlast⟩ := getLast?_joinWith_mem ' ' ws
      (fun x hx => (hw x hx).1) c hc
    have : c ∈ w := by
      cases w with
      | nil => simp at hlast
      | cons a as =>
        have hne' : (a :: as).getLast? ≠ none := getLast?_cons_ne_none a as
        have : (a :: as).getLast ( by simp ) ∈ (a :: as) := List.getLast_mem _
        rw [List.getLast?_eq_getLast _ (by simp)] at hlast
        simp at hlast
        rw [← hlast]
        exact this
    exact alpha_not_ws c ((hw w hwmem).2 c this)

/-- C5: for a title made of letter-only words joined by single spaces, both
slug codecs reproduce the original word boundaries.  The case-preserving codec
recovers the title exactly and encodes it as the words joined by underscores
(`"Roman Empire"` ↦ `"Roman_Empire"` ↦ `"Roman Empire"`); the title-casing
codec returns the title-cased words joined by single spaces, with the same
number of words, in the same order, each word of the same length and equal to
the original up to letter case. -/
theorem c5_roundTrip_letter_titles (ws : List (List Char)) (hne : ws ≠ [])
    (hw : ∀ w ∈ ws, w ≠ [] ∧ ∀ c ∈ w, c.isAlpha = true) :
    (Slugs.titleToWikipediaSlug (joinWith ' ' ws) = joinWith '_' ws) ∧
    (Slugs.wikipediaSlugToTitle (Slugs.titleToWikipediaSlug (joinWith ' ' ws)) =
      joinWith ' ' ws) ∧
    (SlugsTC.titleToWikipediaSlug (joinWith ' ' ws) = joinWith '_' ws) ∧
    (SlugsTC.wikipediaSlugToTitle (SlugsTC.titleToWikipediaSlug (joinWith ' ' ws)) =
      joinWith ' ' (ws.map SlugsTC.titleCaseWord)) ∧
    ((ws.map SlugsTC.titleCaseWord).length = ws.length) ∧
    (∀ w ∈ ws, (SlugsTC.titleCaseWord w).length = w.length ∧
      List.Forall₂ (fun a b => a = b ∨ a = b.toUpper ∨ a = b.toLower)
        (SlugsTC.titleCaseWord w) w) := by
  have hnws : ∀ w ∈ ws, w ≠ [] ∧ ∀ c ∈ w, jsWhitespace c = false :=
    fun w hwm => ⟨(hw w hwm).1, fun c hc => alpha_not_ws c ((hw w hwm).2 c hc)⟩
  have htrim : jsTrim (joinWith ' ' ws) = joinWith ' ' ws :=
    jsTrim_joinWith_alpha ws hne hw
  have hnu : ∀ w ∈ ws, ∀ c ∈ w, c ≠ '_' :=
    fun w hwm c hc => alpha_ne_underscore c ((hw w hwm).2 c hc)
  have hslug : Slugs.titleToWikipediaSlug (joinWith ' ' ws) = joinWith '_' ws := by
    unfold Slugs.titleToWikipediaSlug
    rw [htrim]
    exact collapseWS_joinWith '_' ws hnws
  have hback : Slugs.wikipediaSlugToTitle (joinWith '_' ws) = joinWith ' ' ws := by
    unfold Slugs.wikipediaSlugToTitle
    rw [map_joinWith underscoreToSpace '_' ws]
    have hsep : underscoreToSpace '_' = ' ' := by decide
    have hmap : ws.map (List.map underscoreToSpace) = ws := by
      apply List.map_congr_left ?_ |>.trans (List.map_id ws)
      intro w hwm
      exact map_underscoreToSpace_eq_self w (hnu w hwm)
    rw [hsep, hmap]
  have hslugTC : SlugsTC.titleToWikipediaSlug (joinWith ' ' ws) = joinWith '_' ws := by
    unfold SlugsTC.titleToWikipediaSlug
    rw [htrim, collapseWS_joinWith '_' ws hnws]
    apply List.filter_eq_self.mpr
    intro c hc
    rcases mem_joinWith '_' ws c hc with hc' | ⟨w, hwm, hcw⟩
    · rw [hc']
      decide
    · exact alpha_isWordChar c ((hw w hwm).2 c hcw)
  have hbackTC : SlugsTC.wikipediaSlugToTitle (joinWith '_' ws) =
      joinWith ' ' (ws.map SlugsTC.titleCaseWord) := by
    unfold SlugsTC.wikipediaSlugToTitle
    rw [splitOnChar_joinWith '_' ws hne hnu]
  refine ⟨hslug, ?_, hslugTC, ?_, by rw [List.length_map], ?_⟩
  · rw [hslug]
    exact hback
  · rw [hslugTC]
    exact hbackTC
  · intro w _
    exact ⟨titleCaseWord_length w, titleCaseWord_caseRel w⟩

/-- Witness for C5 at the spec's example `"Roman Empire"`. -/
theorem c5_roundTrip_witness :
    Slugs.titleToWikipediaSlug ("Roman Empire".toList) = "Roman_Empire".toList ∧
    Slugs.wikipediaSlugToTitle (Slugs.titleToWikipediaSlug ("Roman Empire".toList)) =
      "Roman Empire".toList ∧
    SlugsTC.wikipediaSlugToTitle (SlugsTC.titleToWikipediaSlug ("Roman Empire".toList)) =
      "Roman Empire".toList := by
  have h := c5_roundTrip_letter_titles ["Roman".toList, "Empire".toList]
    (by decide) (by decide)
  exact ⟨h.1, h.2.1, h.2.2.2.1⟩

/-! ### Disk cache (`src/utils/fileCache.js`) -/

/-- The freshness test at the heart of `isCached`:
`(Date.now() - stats.mtime.getTime()) / (1000 * 60 * 60) < maxAgeHours`.
Times are in milliseconds, modelled as rationals. -/
def freshWithin (now mtime maxAgeHours : ℚ) : Bool :=
  decide ((now - mtime) / (1000 * 60 * 60) < maxAgeHours)

/-- The cache directory, modelled as a map from file path to the file's
modification time (`isCached` only ever stats the file). -/
structure FsState where
  files : List Char → Option ℚ

/-- `getCacheFilePath(key, isBinary)`: `key + (isBinary ? ".bin" : ".json")`. -/
def getCacheFilePath (key : List Char) (isBinary : Bool) : List Char :=
  key ++ (if isBinary then ".bin".toList else ".json".toList)

/-- `isCached(key, maxAgeHours, isBinary)`: false when the cache file does not
exist, otherwise true iff the file's age in hours is strictly below
`maxAgeHours`. -/
def isCached (fs : FsState) (now : ℚ) (key : List Char) (maxAgeHours : ℚ)
    (isBinary : Bool) : Bool :=
  match fs.files (getCacheFilePath key isBinary) with
  | none => false
  | some mtime => freshWithin now mtime maxAgeHours

/-- C6: `isCached` is true iff an entry exists and its age is strictly less
than `maxAgeHours`; in particular an entry written now is not cached for
`maxAgeHours = 0` and is cached for any positive `maxAgeHours`. -/
theorem c6_isCached_ttl (fs : FsState) (now : ℚ) (key : List Char)
    (maxAgeHours : ℚ) (isBinary : Bool) :
    (isCached fs now key maxAgeHours isBinary = true ↔
      ∃ m, fs.files (getCacheFilePath key isBinary) = some m ∧
        (now - m) / (1000 * 60 * 60) < maxAgeHours) ∧
    (fs.files (getCacheFilePath key isBinary) = some now →
      isCached fs now key 0 isBinary = false ∧
      ∀ bigAge : ℚ, 0 < bigAge → isCached fs now key bigAge isBinary = true) := by
  constructor
  · constructor
    · intro h
      unfold isCached at h
      cases hf : fs.files (getCacheFilePath key isBinary) with
      | none => rw [hf] at h; simp at h
      | some m =>
        rw [hf] at h
        unfold freshWithin at h
        exact ⟨m, rfl, of_decide_eq_true h⟩
    · rintro ⟨m, hm, hlt⟩
      unfold isCached
      rw [hm]
      unfold freshWithin
      exact decide_eq_true hlt
  · intro hnow
    constructor
    · unfold isCached
      rw [hnow]
      unfold freshWithin
      simp
    · intro bigAge hpos
      unfold isCached
      rw [hnow]
      unfold freshWithin
      simp
      exact hpos

/-- Witness for C6: a file written at time 5 and queried at time 5 is not
cached with `maxAgeHours = 0` but is cached with `maxAgeHours = 24`. -/
theorem c6_isCached_ttl_witness :
    isCached ⟨fun p => if p = getCacheFilePath ("wiki_X".toList) false
      then some 5 else none⟩ 5 ("wiki_X".toList) 0 false = false ∧
    isCached ⟨fun p => if p = getCacheFilePath ("wiki_X".toList) false
      then some 5 else none⟩ 5 ("wiki_X".toList) 24 false = true := by
  have h := (c6_isCached_ttl ⟨fun p => if p = getCacheFilePath ("wiki_X".toList) false
      then some 5 else none⟩ 5 ("wiki_X".toList) 0 false).2 (by simp)
  exact ⟨h.1, h.2 24 (by norm_num)⟩

/-! ### Valid-page registry (`src/utils/validPages.js`, second half of
`src/server.js`'s blob) -/

/-- The in-memory set of valid slugs (`validPages`), modelled as the list of
insertions; JavaScript `Set` membership is list membership here. -/
structure ValidPagesState where
  validPages : List (List Char)

/-- `isValidPage(slug)`: `validPages.has(slug)`. -/
def isValidPage (st : ValidPagesState) (slug : List Char) : Bool :=
  decide (slug ∈ st.validPages)

/-- `addValidPage(title)`: encode the title with `titleToWikipediaSlug` and
insert the slug if absent. -/
def addValidPage (st : ValidPagesState) (title : List Char) : ValidPagesState :=
  let slug := Slugs.titleToWikipediaSlug title
  if slug ∈ st.validPages then st else ⟨st.validPages ++ [slug]⟩

/-- A search suggestion as consumed by `addSuggestionsToValid` (only the
`title` field is read). -/
structure Suggestion where
  title : List Char

/-- `addSuggestionsToValid(suggestions)`: insert each suggestion's slug if
absent. -/
def addSuggestionsToValid (st : ValidPagesState)
    (suggestions : List Suggestion) : ValidPagesState :=
  suggestions.foldl
    (fun acc s =>
      let slug := Slugs.titleToWikipediaSlug s.title
      if slug ∈ acc.validPages then acc else ⟨acc.validPages ++ [slug]⟩)
    st

theorem addValidPage_mem (st : ValidPagesState) (title : List Char)
    (s : List Char) (h : s ∈ st.validPages) :
    s ∈ (addValidPage st title).validPages := by
  unfold addValidPage
  by_cases hc : Slugs.titleToWikipediaSlug title ∈ st.validPages
  · simpa [hc] using h
  · simp [hc]
    exact Or.inl h

theorem addSuggestionsToValid_mem (st : ValidPagesState)
    (suggestions : List Suggestion) (s : List Char) (h : s ∈ st.validPages) :
    s ∈ (addSuggestionsToValid st suggestions).validPages := by
  induction suggestions generalizing st with
  | nil => exact h
  | cons sg sgs ih =>
    unfold addSuggestionsToValid
    rw [List.foldl_cons]
    apply ih
    by_cases hc : Slugs.titleToWikipediaSlug sg.title ∈ st.validPages
    · simpa [hc] using h
    · simp [hc]
      exact Or.inl h

/-- C7: immediately after `addValidPage(title)`, `isValidPage` holds for the
slug the title encodes to, and no registry operation ever removes a member:
membership survives every further `addValidPage` and `addSuggestionsToValid`. -/
theorem c7_registry_monotone :
    (∀ (st : ValidPagesState) (title : List Char),
      isValidPage (addValidPage st title) (Slugs.titleToWikipediaSlug title) = true) ∧
    (∀ (st : ValidPagesState) (title s : List Char),
      isValidPage st s = true → isValidPage (addValidPage st title) s = true) ∧
    (∀ (st : ValidPagesState) (suggestions : List Suggestion) (s : List Char),
      isValidPage st s = true →
        isValidPage (addSuggestionsToValid st suggestions) s = true) := by
  refine ⟨?_, ?_, ?_⟩
  · intro st title
    unfold isValidPage addValidPage
    by_cases hc : Slugs.titleToWikipediaSlug title ∈ st.validPages
    · simp [hc]
    · simp [hc]
  · intro st title s h
    unfold isValidPage at h ⊢
    exact decide_eq_true (addValidPage_mem st title s (of_decide_eq_true h))
  · intro st suggestions s h
    unfold isValidPage at h ⊢
    exact decide_eq_true
      (addSuggestionsToValid_mem st suggestions s (of_decide_eq_true h))

/-- Witness for C7: on an empty registry, adding "Roman Empire" makes its slug
valid, and the slug stays valid after another add and a suggestion batch. -/
theorem c7_registry_monotone_witness :
    isValidPage (addValidPage ⟨[]⟩ ("Roman Empire".toList))
      (Slugs.titleToWikipediaSlug ("Roman Empire".toList)) = true ∧
    isValidPage
      (addValidPage (addValidPage ⟨[]⟩ ("Roman Empire".toList)) ("Berlin".toList))
      (Slugs.titleToWikipediaSlug ("Roman Empire".toList)) = true ∧
    isValidPage
      (addSuggestionsToValid (addValidPage ⟨[]⟩ ("Roman Empire".toList))
        [⟨"Byzantine Empire".toList⟩])
      (Slugs.titleToWikipediaSlug ("Roman Empire".toList)) = true := by
  refine ⟨c7_registry_monotone.1 ⟨[]⟩ ("Roman Empire".toList), ?_, ?_⟩
  · exact c7_registry_monotone.2.1 _ ("Berlin".toList) _
      (c7_registry_monotone.1 ⟨[]⟩ ("Roman Empire".toList))
  · exact c7_registry_monotone.2.2 _ [⟨"Byzantine Empire".toList⟩] _
      (c7_registry_monotone.1 ⟨[]⟩ ("Roman Empire".toList))

/-! ### Image references and the prompt store (`src/utils/imageContext.js`) -/

/-- Origin of an image reference (`type: "figure" | "standalone" | "infobox"`). -/
inductive ImageRefType where
  | figure
  | standalone
  | infobox
deriving DecidableEq

/-- One discovered image reference:
`{ filename, slug, alt, caption, type }`. -/
structure ImageRef where
  filename : List Char
  slug : List Char
  alt : List Char
  caption : List Char
  type : ImageRefType
deriving DecidableEq

/-- A stored image-prompt record (the fields `getImagePrompt` reads):
`{ prompt, articleTitle, ready }`. -/
structure ImagePromptData where
  prompt : Option (List Char)
  articleTitle : List Char
  ready : Bool
deriving DecidableEq

/-- The text-cache contents restricted to prompt records, keyed by cache key. -/
def PromptStore : Type := List Char → Option ImagePromptData

/-- `img_prompt_${imageSlug}`. -/
def promptKey (imageSlug : List Char) : List Char :=
  "img_prompt_".toList ++ imageSlug

/-- `storeImagePrompt(imageSlug, prompt, articleTitle)`: overwrite the record
with a ready prompt. -/
def storeImagePrompt (store : PromptStore) (imageSlug prompt articleTitle : List Char) :
    PromptStore :=
  fun k => if k = promptKey imageSlug
    then some ⟨some prompt, articleTitle, true⟩ else store k

/-- `markPromptsGenerating(imageReferences, articleTitle)`: write a
`{ prompt: null, ready: false }` record for every reference. -/
def markPromptsGenerating (store : PromptStore) (imageReferences : List ImageRef)
    (articleTitle : List Char) : PromptStore :=
  imageReferences.foldl
    (fun st img => fun k => if k = promptKey img.slug
      then some ⟨none, articleTitle, false⟩ else st k)
    store

/-! ### Batch prompt generation (`generateBatchImagePrompts`) -/

/-- `img.caption || img.alt || img.slug.replace(/_/g, " ")` with JavaScript
string truthiness (the empty string is falsy). -/
def refDescription (img : ImageRef) : List Char :=
  if img.caption ≠ [] then img.caption
  else if img.alt ≠ [] then img.alt
  else img.slug.map underscoreToSpace

/-- The deterministic fallback prompt of the catch branch:
`Educational photo of ${...}, documentary style`. -/
def fallbackPrompt (img : ImageRef) : List Char :=
  "Educational photo of ".toList ++ refDescription img ++ ", documentary style".toList

/-- `line.replace(/^\d+\.\s*/, "")`: strip a leading `1. `-style numbering. -/
def stripNumberPrefix (line : List Char) : List Char :=
  match line.takeWhile Char.isDigit, line.dropWhile Char.isDigit with
  | _ :: _, '.' :: r => r.dropWhile jsWhitespace
  | _, _ => line

/-- Parsing of the batch response:
`response.split("\n").map(l => l.replace(/^\d+\.\s*/, "").trim())
  .filter(l => l.length > 0).slice(0, n)`. -/
def parseBatchPrompts (n : Nat) (resp : List Char) : List (List Char) :=
  ((((splitOnChar '\n' resp).map
    (fun l => jsTrim (stripNumberPrefix l))).filter
      (fun l => decide (l ≠ []))).take n)

/-- The success-branch store loop:
`imageReferences.forEach((img, index) => { if (prompts[index])
storeImagePrompt(img.slug, prompts[index], articleTitle) })`.  All parsed
prompts are non-empty strings, so the truthiness guard is exactly "the index
is within the prompt list". -/
def storePromptsLoop (articleTitle : List Char) :
    PromptStore → List ImageRef → List (List Char) → PromptStore
  | store, [], _ => store
  | store, _ :: _, [] => store
  | store, img :: imgs, p :: ps =>
    storePromptsLoop articleTitle (storeImagePrompt store img.slug p articleTitle) imgs ps

/-- The catch branch: store the deterministic fallback prompt for every image
and return the fallback prompts. -/
def batchFallback (store : PromptStore) (imageReferences : List ImageRef)
    (articleTitle : List Char) : PromptStore × List (List Char) :=
  (imageReferences.foldl
    (fun st img => storeImagePrompt st img.slug (fallbackPrompt img) articleTitle)
    store,
   imageReferences.map fallbackPrompt)

/-- `generateBatchImagePrompts(imageReferences, articleTitle)`.  The LLM call
is an input: `none` models a thrown error, `some raw` a returned completion
(`raw.trim()` empty also lands in the catch branch, because the code throws
on an empty response).  The result is the updated prompt store and the
returned prompt list. -/
def generateBatchImagePrompts (store : PromptStore)
    (imageReferences : List ImageRef) (articleTitle : List Char)
    (response : Option (List Char)) : PromptStore × List (List Char) :=
  if imageReferences.isEmpty then (store, [])
  else
    match response with
    | none => batchFallback store imageReferences articleTitle
    | some raw =>
      let resp := jsTrim raw
      if resp = [] then batchFallback store imageReferences articleTitle
      else
        let prompts := parseBatchPrompts imageReferences.length resp
        (storePromptsLoop articleTitle store imageReferences prompts, prompts)

theorem promptKey_inj {a b : List Char} (h : promptKey a = promptKey b) : a = b :=
  List.append_cancel_left h

theorem storePromptsLoop_preserve (t : List Char) (store : PromptStore)
    (refs : List ImageRef) (ps : List (List Char)) (k : List Char)
    (h : ∀ img ∈ refs, promptKey img.slug ≠ k) :
    storePromptsLoop t store refs ps k = store k := by
  induction refs generalizing store ps with
  | nil => cases ps <;> rfl
  | cons r rs ih =>
    cases ps with
    | nil => rfl
    | cons p ps' =>
      unfold storePromptsLoop
      rw [ih _ ps' (fun img him => h img (List.mem_cons_of_mem r him))]
      unfold storeImagePrompt
      exact if_neg (fun e => h r (List.mem_cons_self r rs) e.symm)

theorem storePromptsLoop_lookup (t : List Char) (store : PromptStore)
    (refs : List ImageRef) (ps : List (List Char)) (img : ImageRef) (p : List Char)
    (hnd : (refs.map ImageRef.slug).Nodup) (hmem : (img, p) ∈ refs.zip ps) :
    storePromptsLoop t store refs ps (promptKey img.slug) =
      some ⟨some p, t, true⟩ := by
  induction refs generalizing store ps with
  | nil => simp at hmem
  | cons r rs ih =>
    cases ps with
    | nil => simp at hmem
    | cons q qs =>
      have hnd' : (rs.map ImageRef.slug).Nodup := by
        rw [List.map_cons, List.nodup_cons] at hnd
        exact hnd.2
      have hhead : r.slug ∉ rs.map ImageRef.slug := by
        rw [List.map_cons, List.nodup_cons] at hnd
        exact hnd.1
      rw [List.zip_cons_cons] at hmem
      rcases List.mem_cons.mp hmem with heq | hmem'
      · have h1 : img = r := congrArg Prod.fst heq
        have h2 : p = q := congrArg Prod.snd heq
        subst h1
        subst h2
        unfold storePromptsLoop
        rw [storePromptsLoop_preserve t _ rs qs (promptKey img.slug) ?_]
        · unfold storeImagePrompt
          rw [if_pos rfl]
        · intro x hx e
          exact hhead (promptKey_inj e ▸ List.mem_map_of_mem ImageRef.slug hx)
      · unfold storePromptsLoop
        exact ih _ qs hnd' hmem'

theorem storePromptsLoop_drop (t : List Char) (store : PromptStore)
    (refs : List ImageRef) (ps : List (List Char)) (img : ImageRef)
    (hnd : (refs.map ImageRef.slug).Nodup) (hmem : img ∈ refs.drop ps.length) :
    storePromptsLoop t store refs ps (promptKey img.slug) =
      store (promptKey img.slug) := by
  induction refs generalizing store ps with
  | nil => simp at hmem
  | cons r rs ih =>
    cases ps with
    | nil => rfl
    | cons q qs =>
      have hnd' : (rs.map ImageRef.slug).Nodup := by
        rw [List.map_cons, List.nodup_cons] at hnd
        exact hnd.2
      have hhead : r.slug ∉ rs.map ImageRef.slug := by
        rw [List.map_cons, List.nodup_cons] at hnd
        exact hnd.1
      have hmem' : img ∈ rs.drop qs.length := by simpa using hmem
      unfold storePromptsLoop
      rw [ih _ qs hnd' hmem']
      unfold storeImagePrompt
      refine if_neg (fun e => ?_)
      have : img.slug = r.slug := promptKey_inj e
      exact hhead (this ▸ List.mem_map_of_mem ImageRef.slug (List.mem_of_mem_drop hmem'))

theorem fallbackFold_preserve (t : List Char) (store : PromptStore)
    (refs : List ImageRef) (k : List Char)
    (h : ∀ img ∈ refs, promptKey img.slug ≠ k) :
    (refs.foldl
      (fun st img => storeImagePrompt st img.slug (fallbackPrompt img) t)
      store) k = store k := by
  induction refs generalizing store with
  | nil => rfl
  | cons r rs ih =>
    rw [List.foldl_cons]
    rw [ih _ (fun img him => h img (List.mem_cons_of_mem r him))]
    unfold storeImagePrompt
    exact if_neg (fun e => h r (List.mem_cons_self r rs) e.symm)

theorem fallbackFold_lookup (t : List Char) (store : PromptStore)
    (refs : List ImageRef) (img : ImageRef)
    (hnd : (refs.map ImageRef.slug).Nodup) (hmem : img ∈ refs) :
    (refs.foldl
      (fun st img => storeImagePrompt st img.slug (fallbackPrompt img) t)
      store) (promptKey img.slug) =
      some ⟨some (fallbackPrompt img), t, true⟩ := by
  induction refs generalizing store with
  | nil => simp at hmem
  | cons r rs ih =>
    have hnd' : (rs.map ImageRef.slug).Nodup := by
      rw [List.map_cons, List.nodup_cons] at hnd
      exact hnd.2
    have hhead : r.slug ∉ rs.map ImageRef.slug := by
      rw [List.map_cons, List.nodup_cons] at hnd
      exact hnd.1
    rw [List.foldl_cons]
    rcases List.mem_cons.mp hmem with heq | hmem'
    · subst heq
      rw [fallbackFold_preserve t _ rs (promptKey img.slug) ?_]
      · unfold storeImagePrompt
        rw [if_pos rfl]
      · intro x hx e
        exact hhead (promptKey_inj e ▸ List.mem_map_of_mem ImageRef.slug hx)
    · exact ih _ hnd' hmem'

/-- C2 (counterexample): with two images marked generating and a successful
batch call whose response parses to a single prompt line, the second image's
record is left `{ prompt: null, ready: false }`: it never receives a ready
prompt, and the fallback branch is not taken because the call succeeded. -/
theorem c2_counterexample :
    ((generateBatchImagePrompts
      (markPromptsGenerating (fun _ => none)
        [⟨"alpha.webp".toList, "alpha".toList, "a1".toList, "c1".toList, .figure⟩,
         ⟨"beta.webp".toList, "beta".toList, "a2".toList, "c2".toList, .figure⟩]
        ("T".toList))
      [⟨"alpha.webp".toList, "alpha".toList, "a1".toList, "c1".toList, .figure⟩,
       ⟨"beta.webp".toList, "beta".toList, "a2".toList, "c2".toList, .figure⟩]
      ("T".toList) (some "studio photo".toList)).1
      (promptKey "beta".toList)) = some ⟨none, "T".toList, false⟩ := by
  decide

/-- C2 (amended): prompt preparation stores a ready prompt for every image on
batch failure (each image gets the deterministic fallback prompt), and on
batch success it stores the i-th parsed prompt for the i-th image only while
parsed prompts remain; images beyond the parsed prompt list are left
untouched, so they can stay without a ready prompt. -/
theorem c2_batchPrompts_shortResponse (store : PromptStore) (refs : List ImageRef)
    (title : List Char) (hnd : (refs.map ImageRef.slug).Nodup) :
    (∀ img ∈ refs,
      (generateBatchImagePrompts store refs title none).1 (promptKey img.slug) =
        some ⟨some (fallbackPrompt img), title, true⟩) ∧
    (∀ raw, jsTrim raw = [] → ∀ img ∈ refs,
      (generateBatchImagePrompts store refs title (some raw)).1 (promptKey img.slug) =
        some ⟨some (fallbackPrompt img), title, true⟩) ∧
    (∀ raw, jsTrim raw ≠ [] →
      (∀ pr ∈ refs.zip (parseBatchPrompts refs.length (jsTrim raw)),
        (generateBatchImagePrompts store refs title (some raw)).1
          (promptKey pr.1.slug) = some ⟨some pr.2, title, true⟩) ∧
      (∀ img ∈ refs.drop (parseBatchPrompts refs.length (jsTrim raw)).length,
        (generateBatchImagePrompts store refs title (some raw)).1
          (promptKey img.slug) = store (promptKey img.slug))) := by
  cases refs with
  | nil =>
    refine ⟨by simp, fun raw _ => by simp, fun raw hraw => ⟨by simp, by simp⟩⟩
  | cons r rs =>
    have hempty : (r :: rs).isEmpty = false := rfl
    refine ⟨?_, ?_, ?_⟩
    · intro img hmem
      show (batchFallback store (r :: rs) title).1 (promptKey img.slug) = _
      exact fallbackFold_lookup title store (r :: rs) img hnd hmem
    · intro raw hraw img hmem
      have : generateBatchImagePrompts store (r :: rs) title (some raw) =
          batchFallback store (r :: rs) title := by
        unfold generateBatchImagePrompts
        rw [hempty]
        simp [hraw]
      rw [this]
      exact fallbackFold_lookup title store (r :: rs) img hnd hmem
    · intro raw hraw
      have hgen : generateBatchImagePrompts store (r :: rs) title (some raw) =
          (storePromptsLoop title store (r :: rs)
            (parseBatchPrompts (r :: rs).length (jsTrim raw)),
           parseBatchPrompts (r :: rs).length (jsTrim raw)) := by
        unfold generateBatchImagePrompts
        rw [hempty]
        simp [hraw]
      constructor
      · intro pr hpr
        rw [hgen]
        exact storePromptsLoop_lookup title store (r :: rs) _ pr.1 pr.2 hnd
          (by simpa using hpr)
      · intro img hmem
        rw [hgen]
        exact storePromptsLoop_drop title store (r :: rs) _ img hnd hmem

/-- Witness for C2 (amended): on a failed batch call both images receive the
fallback prompt ready, and on a successful two-line response the first image
receives the first parsed prompt. -/
theorem c2_batchPrompts_shortResponse_witness :
    ((generateBatchImagePrompts (fun _ => none)
      [⟨"alpha.webp".toList, "alpha".toList, "a1".toList, "c1".toList, .figure⟩,
       ⟨"beta.webp".toList, "beta".toList, "a2".toList, "c2".toList, .figure⟩]
      ("T".toList) none).1 (promptKey "beta".toList) =
      some ⟨some (fallbackPrompt
        ⟨"beta.webp".toList, "beta".toList, "a2".toList, "c2".toList, .figure⟩),
        "T".toList, true⟩) := by
  have h := (c2_batchPrompts_shortResponse (fun _ => none)
    [⟨"alpha.webp".toList, "alpha".toList, "a1".toList, "c1".toList, .figure⟩,
     ⟨"beta.webp".toList, "beta".toList, "a2".toList, "c2".toList, .figure⟩]
    ("T".toList) (by decide)).1
  exact h ⟨"beta.webp".toList, "beta".toList, "a2".toList, "c2".toList, .figure⟩
    (by decide)

/-! ### `getImagePrompt` and the image route (`src/server.js`) -/

/-- What `getImagePrompt` can return to its caller: a ready record, or the
`{ ready: false, generating: true }` marker; `none` models its `null`. -/
inductive PromptLookup where
  | ready (data : ImagePromptData)
  | generating
deriving DecidableEq

/-- A prompt cache entry as seen through `isCached` + `getCache`: the file's
modification time together with the decoded record (`none` when `getCache`
returns `null`, e.g. on corruption). -/
structure PromptCacheEntry where
  mtime : ℚ
  data : Option ImagePromptData

/-- The prompt cache, keyed by the full cache key. -/
def PromptCache : Type := List Char → Option PromptCacheEntry

/-- JavaScript truthiness of the stored `prompt` field: `null` and the empty
string are falsy. -/
def promptTruthy : Option (List Char) → Bool
  | none => false
  | some s => decide (s ≠ [])

/-- `getImagePrompt(imageSlug)`: inside the 168-hour freshness window, return
the record when `promptData?.ready && promptData?.prompt`, the generating
marker when `promptData && !promptData.ready`, and `null` otherwise (also for
a missing or stale entry). -/
def getImagePrompt (cache : PromptCache) (now : ℚ) (imageSlug : List Char) :
    Option PromptLookup :=
  match cache (promptKey imageSlug) with
  | none => none
  | some e =>
    if freshWithin now e.mtime 168 then
      match e.data with
      | none => none
      | some d =>
        if d.ready && promptTruthy d.prompt then some (.ready d)
        else if !d.ready then some .generating
        else none
    else none

/-- A binary cache entry as seen by the image route: modification time and
whether `getCache(cacheKey, true)` produced an object with a truthy
`buffer`. -/
structure BinCacheEntry where
  mtime : ℚ
  hasBuffer : Bool

/-- The binary image cache, keyed by the full cache key. -/
def BinCache : Type := List Char → Option BinCacheEntry

/-- The extension allow-list of the image route. -/
def allowedExtensions : List (List Char) :=
  ["png", "jpg", "jpeg", "webp", "svg", "gif", "bmp", "tiff", "ico"].map
    String.toList

/-- Observable outcome of one `GET /images/:filename.:ext` request:
the HTTP status, whether `generateWikiImage` was invoked, and whether the
body is the machine-readable `{ status: "generating" }` JSON. -/
structure ImageResponse where
  status : Nat
  generationCalled : Bool
  bodyGenerating : Bool
deriving DecidableEq

/-- The `GET /images/:filename.:ext` handler.  `genOk` models the outcome of
`generateWikiImage` when it is reached (`false` = the call throws, giving the
500 branch). -/
def imagesRoute (bin : BinCache) (pcache : PromptCache) (now : ℚ)
    (filename ext : List Char) (genOk : Bool) : ImageResponse :=
  if (allowedExtensions.contains (ext.map Char.toLower)) = false then
    ⟨404, false, false⟩
  else
    let cacheKey := "image_".toList ++ filename
    let served :=
      match bin cacheKey with
      | some e => freshWithin now e.mtime 168 && e.hasBuffer
      | none => false
    if served then ⟨200, false, false⟩
    else
      match getImagePrompt pcache now filename with
      | none => ⟨404, false, false⟩
      | some .generating => ⟨202, false, true⟩
      | some (.ready _) => ⟨if genOk then 200 else 500, true, false⟩

/-- C8: for an allowed extension with no fresh cached binary, a missing
prompt record yields 404 and a not-ready record yields 202 with the
machine-readable generating body, and no image-generation call happens in
either case. -/
theorem c8_imageRoute_prompt_gate (bin : BinCache) (pcache : PromptCache)
    (now : ℚ) (filename ext : List Char) (genOk : Bool)
    (hext : allowedExtensions.contains (ext.map Char.toLower) = true)
    (hnocache : ∀ e, bin ("image_".toList ++ filename) = some e →
      (freshWithin now e.mtime 168 && e.hasBuffer) = false) :
    (getImagePrompt pcache now filename = none →
      imagesRoute bin pcache now filename ext genOk = ⟨404, false, false⟩) ∧
    (getImagePrompt pcache now filename = some .generating →
      imagesRoute bin pcache now filename ext genOk = ⟨202, false, true⟩) := by
  have hserved :
      (match bin ("image_".toList ++ filename) with
        | some e => freshWithin now e.mtime 168 && e.hasBuffer
        | none => false) = false := by
    cases hb : bin ("image_".toList ++ filename) with
    | none => rfl
    | some e => exact hnocache e hb
  constructor
  · intro hmiss
    unfold imagesRoute
    rw [hext]
    dsimp only
    rw [hserved, hmiss]
    simp
  · intro hgen
    unfold imagesRoute
    rw [hext]
    dsimp only
    rw [hserved, hgen]
    simp

/-- Witness for C8: requesting `Eiffel_Tower.webp` with an empty binary cache
gives 404 when no prompt record exists, and 202 with the generating body when
the record is marked `ready: false`. -/
theorem c8_imageRoute_prompt_gate_witness :
    imagesRoute (fun _ => none) (fun _ => none) 0
      ("Eiffel_Tower".toList) ("webp".toList) true = ⟨404, false, false⟩ ∧
    imagesRoute (fun _ => none)
      (fun k => if k = promptKey ("Eiffel_Tower".toList)
        then some ⟨0, some ⟨none, "Eiffel Tower".toList, false⟩⟩ else none) 0
      ("Eiffel_Tower".toList) ("webp".toList) true = ⟨202, false, true⟩ := by
  constructor
  · exact (c8_imageRoute_prompt_gate (fun _ => none) (fun _ => none) 0
      ("Eiffel_Tower".toList) ("webp".toList) true (by decide)
      (fun e he => by simp at he)).1 rfl
  · have hfresh : freshWithin (0 : ℚ) 0 168 = true := by
      unfold freshWithin
      rw [decide_eq_true_eq]
      norm_num
    refine (c8_imageRoute_prompt_gate (fun _ => none)
      (fun k => if k = promptKey ("Eiffel_Tower".toList)
        then some ⟨0, some ⟨none, "Eiffel Tower".toList, false⟩⟩ else none) 0
      ("Eiffel_Tower".toList) ("webp".toList) true (by decide)
      (fun e he => by simp at he)).2 ?_
    unfold getImagePrompt
    dsimp only
    rw [if_pos rfl]
    dsimp only
    rw [if_pos hfresh]
    simp [promptTruthy]

/-- C10: a stored record with `ready: true` but a `null` or empty `prompt` is
treated exactly like a missing record: `getImagePrompt` returns `null` and
the image route answers 404 without calling the generator. -/
theorem c10_ready_without_prompt_is_missing (pcache : PromptCache) (now : ℚ)
    (filename : List Char) (e : PromptCacheEntry) (d : ImagePromptData)
    (h1 : pcache (promptKey filename) = some e) (h2 : e.data = some d)
    (h3 : d.ready = true) (h4 : d.prompt = none ∨ d.prompt = some []) :
    getImagePrompt pcache now filename = none ∧
    (∀ (bin : BinCache) (ext : List Char) (genOk : Bool),
      allowedExtensions.contains (ext.map Char.toLower) = true →
      (∀ be, bin ("image_".toList ++ filename) = some be →
        (freshWithin now be.mtime 168 && be.hasBuffer) = false) →
      imagesRoute bin pcache now filename ext genOk = ⟨404, false, false⟩) := by
  have htruthy : promptTruthy d.prompt = false := by
    rcases h4 with h4 | h4 <;> rw [h4] <;> rfl
  have hlookup : getImagePrompt pcache now filename = none := by
    unfold getImagePrompt
    rw [h1]
    dsimp only
    by_cases hf : freshWithin now e.mtime 168 = true
    · rw [if_pos hf, h2]
      dsimp only
      rw [h3, htruthy]
      simp
    · rw [if_neg hf]
  refine ⟨hlookup, fun bin ext genOk hext hnocache => ?_⟩
  exact (c8_imageRoute_prompt_gate bin pcache now filename ext genOk
    hext hnocache).1 hlookup

/-- Witness for C10: a record with `ready: true` and an empty prompt string
behaves like a missing record: `null` lookup and a 404 response. -/
theorem c10_ready_without_prompt_is_missing_witness :
    getImagePrompt
      (fun k => if k = promptKey ("Eiffel_Tower".toList)
        then some ⟨0, some ⟨some [], "Eiffel Tower".toList, true⟩⟩ else none) 0
      ("Eiffel_Tower".toList) = none ∧
    imagesRoute (fun _ => none)
      (fun k => if k = promptKey ("Eiffel_Tower".toList)
        then some ⟨0, some ⟨some [], "Eiffel Tower".toList, true⟩⟩ else none) 0
      ("Eiffel_Tower".toList) ("webp".toList) true = ⟨404, false, false⟩ := by
  have h := c10_ready_without_prompt_is_missing
    (fun k => if k = promptKey ("Eiffel_Tower".toList)
      then some ⟨0, some ⟨some [], "Eiffel Tower".toList, true⟩⟩ else none) 0
    ("Eiffel_Tower".toList) ⟨0, some ⟨some [], "Eiffel Tower".toList, true⟩⟩
    ⟨some [], "Eiffel Tower".toList, true⟩ (by simp) rfl rfl (Or.inr rfl)
  exact ⟨h.1, h.2 (fun _ => none) ("webp".toList) true (by decide)
    (fun be hbe => by simp at hbe)⟩

/-! ### The wiki-page route (`app.get("/wiki/:page")` in `src/server.js`) -/

/-- A text cache entry as seen through `isCached` + `getCache`: modification
time and the decoded page (`none` when `getCache` returns `null`). -/
structure PageCacheEntry where
  mtime : ℚ
  content : Option (List Char)

/-- The page cache, keyed by the full cache key `wiki_${decodedPage}`. -/
def PageCache : Type := List Char → Option PageCacheEntry

/-- The process state the wiki route reads and writes: the page cache and the
valid-page registry. -/
structure WikiStore where
  pageCache : PageCache
  registry : ValidPagesState

/-- Result of the awaited `generatePageContent` / `generateInfobox` fan-out:
the assembled HTML, the linked pages extracted from the markdown, and the
linked pages extracted from the infobox data. -/
structure GenOutcome where
  content : List Char
  linkedPages : List (List Char)
  infoboxLinkedPages : List (List Char)

/-- External collaborator results consumed by one request:
`validateContent(candidateTitle)`, `rewriteSlugToTitle(decodedPage)`, and the
generation fan-out (`none` = one of the generation calls threw). -/
structure WikiOracle where
  validate : Bool
  properTitle : List Char
  generation : Option GenOutcome

/-- Observable outcome of one `GET /wiki/:page` request: HTTP status, the
state afterwards, whether any generation call was issued, and whether an
error fragment was appended to an already-started stream. -/
structure WikiResult where
  status : Nat
  store : WikiStore
  generationCalled : Bool
  errorStreamed : Bool

/-- The route's cache check: `isCached(cacheKey)` (24-hour default) followed
by `if (cachedPage)` — the page is served only when the entry is fresh and
decodes to a truthy (non-empty) string. -/
def wikiCacheHit (st : WikiStore) (now : ℚ) (cacheKey : List Char) :
    Option (List Char) :=
  match st.pageCache cacheKey with
  | some e =>
    if freshWithin now e.mtime 24 then
      match e.content with
      | some c => if c ≠ [] then some c else none
      | none => none
    else none
  | none => none

/-- The generation phase of the route, entered after validation.  Headers and
the `<!DOCTYPE html>` preamble have already been written, so a thrown
generation call results in an error fragment on the open 200 stream.  On
success: every linked page and infobox-linked page is registered, the
rendered page is cached under `cacheKey`, and the title is registered. -/
def wikiGenerate (st : WikiStore) (now : ℚ) (cacheKey title : List Char)
    (g : Option GenOutcome) : WikiResult :=
  match g with
  | none =>
    { status := 200, store := st, generationCalled := true, errorStreamed := true }
  | some gen =>
    let reg1 := gen.linkedPages.foldl addValidPage st.registry
    let reg2 := gen.infoboxLinkedPages.foldl addValidPage reg1
    let cache' : PageCache := fun k =>
      if k = cacheKey then some ⟨now, some gen.content⟩ else st.pageCache k
    { status := 200,
      store := { pageCache := cache', registry := addValidPage reg2 title },
      generationCalled := true, errorStreamed := false }

/-- The `GET /wiki/:page` handler (the slug codec is the case-preserving
variant of `utils/slugs.js`): serve from cache; otherwise, for a slug not in
the registry, validate (404 on rejection), canonicalise (301 redirect when the
proper slug differs, registering the proper title), and finally generate. -/
def wikiRoute (st : WikiStore) (now : ℚ) (decodedPage : List Char)
    (o : WikiOracle) : WikiResult :=
  let cacheKey := "wiki_".toList ++ decodedPage
  match wikiCacheHit st now cacheKey with
  | some _ =>
    { status := 200, store := st, generationCalled := false, errorStreamed := false }
  | none =>
    if isValidPage st.registry decodedPage then
      wikiGenerate st now cacheKey (Slugs.wikipediaSlugToTitle decodedPage)
        o.generation
    else if o.validate = false then
      { status := 404, store := st, generationCalled := false, errorStreamed := false }
    else
      let properSlug := Slugs.titleToWikipediaSlug o.properTitle
      if properSlug ≠ decodedPage then
        { status := 301,
          store := { st with registry := addValidPage st.registry o.properTitle },
          generationCalled := false, errorStreamed := false }
      else
        wikiGenerate
          { st with registry := addValidPage st.registry o.properTitle }
          now cacheKey (Slugs.wikipediaSlugToTitle decodedPage) o.generation

/-- C9: when validation rejects the topic (cache miss, slug not registered,
`validateContent` false), the route answers 404 and the whole state — page
cache and registry — is returned unchanged, with no generation call. -/
theorem c9_validation_rejected_frame (st : WikiStore) (now : ℚ)
    (decodedPage : List Char) (o : WikiOracle)
    (hmiss : wikiCacheHit st now ("wiki_".toList ++ decodedPage) = none)
    (hnew : isValidPage st.registry decodedPage = false)
    (hrej : o.validate = false) :
    wikiRoute st now decodedPage o =
      { status := 404, store := st, generationCalled := false,
        errorStreamed := false } := by
  unfold wikiRoute
  dsimp only
  rw [hmiss, hnew, hrej]
  simp

/-- Witness for C9: requesting `somerandomgibberish123` against an empty
cache and empty registry with rejecting validation yields 404 and the
untouched state. -/
theorem c9_validation_rejected_frame_witness :
    wikiRoute ⟨fun _ => none, ⟨[]⟩⟩ 0 ("somerandomgibberish123".toList)
      ⟨false, [], none⟩ =
      { status := 404, store := ⟨fun _ => none, ⟨[]⟩⟩,
        generationCalled := false, errorStreamed := false } :=
  c9_validation_rejected_frame ⟨fun _ => none, ⟨[]⟩⟩ 0
    ("somerandomgibberish123".toList) ⟨false, [], none⟩ rfl (by decide) rfl

/-! ### Table of contents (`generateTableOfContents` / `addHeaderIds` in
`src/services/groq.js`) -/

/-- A level-3 subsection entry of the table of contents. -/
structure TocChild where
  title : List Char
  id : List Char
deriving DecidableEq

/-- A level-2 entry of the table of contents with its nested subsections. -/
structure TocItem where
  title : List Char
  id : List Char
  children : List TocChild
deriving DecidableEq

/-- `line.match(/^## (.+)$/)`: exactly two hashes and a space, then at least
one character; the captured group is trimmed (`h2Match[1].trim()`). -/
def matchH2 (line : List Char) : Option (List Char) :=
  match line with
  | '#' :: '#' :: ' ' :: rest => if rest ≠ [] then some (jsTrim rest) else none
  | _ => none

/-- `line.match(/^### (.+)$/)` with the captured group trimmed. -/
def matchH3 (line : List Char) : Option (List Char) :=
  match line with
  | '#' :: '#' :: '#' :: ' ' :: rest =>
    if rest ≠ [] then some (jsTrim rest) else none
  | _ => none

/-- `tocItems[tocItems.length - 1].children.push(subsection)`. -/
def pushChildToLast : List TocItem → TocChild → List TocItem
  | [], _ => []
  | [item], c => [{ item with children := item.children ++ [c] }]
  | item :: rest, c => item :: pushChildToLast rest c

/-- The scanning loop of `generateTableOfContents`: H2 lines open a new item,
H3 lines increment the counter and attach to the last item when one exists;
`counter` is the running `tocCounter`. -/
def buildTocItems : List (List Char) → Nat → List TocItem → List TocItem
  | [], _, items => items
  | line :: lines, counter, items =>
    match matchH2 line with
    | some title =>
      buildTocItems lines (counter + 1)
        (items ++ [⟨title, "toc-".toList ++ (Nat.repr counter).toList, []⟩])
    | none =>
      match matchH3 line with
      | some title =>
        buildTocItems lines (counter + 1)
          (if items.isEmpty then items
           else pushChildToLast items
             ⟨title, "toc-".toList ++ (Nat.repr counter).toList⟩)
      | none => buildTocItems lines counter items

/-- The toc items `generateTableOfContents` collects for a markdown input:
split on newlines and scan with `tocCounter` starting at 1. -/
def tocItemsOf (markdownContent : List Char) : List TocItem :=
  buildTocItems (splitOnChar '\n' markdownContent) 1 []

/-- One `<a href="#id">number title</a>` link of the generated TOC HTML. -/
structure TocLink where
  number : List Char
  id : List Char
  title : List Char
deriving DecidableEq

/-- The links of the TOC HTML in emission order: level-2 items are numbered
by position (`index + 1`), their children `number.childIndex+1`. -/
def tocLinks (items : List TocItem) : List TocLink :=
  items.enum.flatMap (fun p =>
    ⟨(Nat.repr (p.1 + 1)).toList, p.2.id, p.2.title⟩ ::
    p.2.children.enum.map (fun q =>
      ⟨(Nat.repr (p.1 + 1)).toList ++ '.' :: (Nat.repr (q.1 + 1)).toList,
       q.2.id, q.2.title⟩))

/-- Match a literal prefix, returning the remainder on success. -/
def dropLit : List Char → List Char → Option (List Char)
  | [], s => some s
  | _ :: _, [] => none
  | a :: as, c :: cs => if a = c then dropLit as cs else none

/-- One global `replace(/<hN>/g, () => ...)` pass with a shared counter:
scan left to right, replace each occurrence of `pat` by `mk counter` and
increment; returns the rewritten string and the final counter.  Fuel is the
string length plus one; every step consumes at least one input character. -/
def replaceTagCounter (pat : List Char) (mk : Nat → List Char) :
    Nat → Nat → List Char → List Char × Nat
  | 0, counter, s => (s, counter)
  | fuel + 1, counter, s =>
    match dropLit pat s with
    | some s' =>
      let r := replaceTagCounter pat mk fuel (counter + 1) s'
      (mk counter ++ r.1, r.2)
    | none =>
      match s with
      | [] => ([], counter)
      | c :: cs =>
        let r := replaceTagCounter pat mk fuel counter cs
        (c :: r.1, r.2)

/-- `addHeaderIds(htmlContent)`: replace every `<h2>` (in document order)
with an id-carrying tag numbered by the shared counter, then continue the
same counter over every `<h3>`. -/
def addHeaderIds (htmlContent : List Char) : List Char :=
  let step1 := replaceTagCounter ("<h2>".toList)
    (fun n => ("<h2 id=".toList ++ '"' :: "toc-".toList ++ (Nat.repr n).toList
      ++ '"' :: ">".toList))
    (htmlContent.length + 1) 1 htmlContent
  (replaceTagCounter ("<h3>".toList)
    (fun n => ("<h3 id=".toList ++ '"' :: "toc-".toList ++ (Nat.repr n).toList
      ++ '"' :: ">".toList))
    (step1.1.length + 1) step1.2 step1.1).1

/-- C1 (failing-input evaluation): for markdown with H2 "History", H3
"Origins" nested under it, and H2 "Legacy", the table of contents numbers the
anchors 1 / 1.1 / 2 and links History→toc-1, Origins→toc-2, Legacy→toc-3 in
document order — but `addHeaderIds` numbers all `<h2>` elements before any
`<h3>`, injecting toc-2 into Legacy's heading and toc-3 into Origins'
heading, so the Origins and Legacy links point at the wrong headings. -/
theorem c1_toc_header_id_mismatch :
    tocLinks (tocItemsOf ("## History\n### Origins\n## Legacy".toList)) =
      [⟨"1".toList, "toc-1".toList, "History".toList⟩,
       ⟨"1.1".toList, "toc-2".toList, "Origins".toList⟩,
       ⟨"2".toList, "toc-3".toList, "Legacy".toList⟩] ∧
    addHeaderIds ("<h2>History</h2>\n<h3>Origins</h3>\n<h2>Legacy</h2>".toList) =
      ("<h2 id=".toList ++ '"' :: "toc-1".toList ++ '"' :: ">History</h2>\n<h3 id=".toList
        ++ '"' :: "toc-3".toList ++ '"' :: ">Origins</h3>\n<h2 id=".toList
        ++ '"' :: "toc-2".toList ++ '"' :: ">Legacy</h2>".toList) := by
  set_option maxRecDepth 4096 in decide

/-! ### Image-reference extraction (`src/utils/imageContext.js`)

The two extraction regexes are embedded through a small backtracking matcher
with JavaScript semantics: alternatives are tried left to right, greedy
quantifiers consume as much as possible and give back on failure, lazy
quantifiers consume as little as possible, and `exec` with the `g` flag
resumes after the previous match.  All quantifiers in the source regexes
apply to single-character classes, which is all the engine supports. -/

/-- Captured groups of one match: group number paired with matched text. -/
abbrev Captures : Type := List (Nat × List Char)

/-- The supported regex constructors. -/
inductive RE where
  | lit : List Char → RE
  | cls : (Char → Bool) → RE
  | seq : RE → RE → RE
  | alt : RE → RE → RE
  | starG : (Char → Bool) → RE
  | plusG : (Char → Bool) → RE
  | starL : (Char → Bool) → RE
  | group : Nat → RE → RE

/-- Greedy class quantifier in continuation style: prefer consuming more. -/
def greedyConsume {α : Type} (p : Char → Bool) (k : List Char → Option α) :
    List Char → Option α
  | [] => k []
  | c :: cs =>
    if p c then
      match greedyConsume p k cs with
      | some r => some r
      | none => k (c :: cs)
    else k (c :: cs)

/-- Lazy class quantifier in continuation style: prefer consuming less. -/
def lazyConsume {α : Type} (p : Char → Bool) (k : List Char → Option α) :
    List Char → Option α
  | [] => k []
  | c :: cs =>
    match k (c :: cs) with
    | some r => some r
    | none => if p c then lazyConsume p k cs else none

/-- The backtracking matcher: try to match `re` at the start of `s`, calling
the continuation with the remainder and the captures collected so far; a
captured group records the text its subexpression consumed. -/
def reMatch : RE → List Char → Captures →
    (List Char → Captures → Option (List Char × Captures)) →
    Option (List Char × Captures)
  | .lit l, s, caps, k =>
    match dropLit l s with
    | some s' => k s' caps
    | none => none
  | .cls p, s, caps, k =>
    match s with
    | c :: cs => if p c then k cs caps else none
    | [] => none
  | .seq r1 r2, s, caps, k =>
    reMatch r1 s caps (fun s' caps' => reMatch r2 s' caps' k)
  | .alt r1 r2, s, caps, k =>
    match reMatch r1 s caps k with
    | some r => some r
    | none => reMatch r2 s caps k
  | .starG p, s, caps, k => greedyConsume p (fun s' => k s' caps) s
  | .plusG p, s, caps, k =>
    match s with
    | c :: cs => if p c then greedyConsume p (fun s' => k s' caps) cs else none
    | [] => none
  | .starL p, s, caps, k => lazyConsume p (fun s' => k s' caps) s
  | .group n r, s, caps, k =>
    reMatch r s caps (fun s' caps' =>
      k s' (caps' ++ [(n, s.take (s.length - s'.length))]))

/-- Find the leftmost match: try each start position left to right. -/
def reFindFrom (re : RE) : List Char → Option (List Char × Captures)
  | [] =>
    match reMatch re [] [] (fun s' caps => some (s', caps)) with
    | some r => some r
    | none => none
  | c :: cs =>
    match reMatch re (c :: cs) [] (fun s' caps => some (s', caps)) with
    | some r => some r
    | none => reFindFrom re cs

/-- `regex.exec` loop with the `g` flag: gather the captures of successive
non-overlapping matches, resuming after each match.  Both source regexes can
only produce non-empty matches, so `lastIndex` never needs the zero-length
bump and fuel `length + 1` covers every iteration. -/
def reExecAll (re : RE) : Nat → List Char → List Captures
  | 0, _ => []
  | fuel + 1, s =>
    match reFindFrom re s with
    | none => []
    | some (rest, caps) => caps :: reExecAll re fuel rest

/-- Read a captured group (all groups of the source regexes participate in
every match). -/
def capGet (caps : Captures) (n : Nat) : List Char :=
  match caps.find? (fun q => q.1 == n) with
  | some q => q.2
  | none => []

/-- `[^x]` as a character class. -/
def notChar (x : Char) : Char → Bool := fun c => decide (c ≠ x)

/-- `[\s\S]` — any character. -/
def anyChar : Char → Bool := fun _ => true

/-- Sequence a list of regex pieces. -/
def reSeqList (rs : List RE) : RE := rs.foldr RE.seq (RE.lit [])

/-- The figure regex:
`<figure[^>]*>[\s\S]*?<img[^>]+data-src="\/images\/([^"]+)"[^>]*alt="([^"]*)"[^>]*>[\s\S]*?<figcaption[^>]*>([^<]*)<\/figcaption>[\s\S]*?<\/figure>`. -/
def figureRegex : RE := reSeqList [
  .lit "<figure".toList, .starG (notChar '>'), .lit ">".toList,
  .starL anyChar,
  .lit "<img".toList, .plusG (notChar '>'),
  .lit ("data-src=".toList ++ ['"']), .lit "/images/".toList,
  .group 1 (.plusG (notChar '"')), .lit ['"'],
  .starG (notChar '>'),
  .lit ("alt=".toList ++ ['"']),
  .group 2 (.starG (notChar '"')), .lit ['"'],
  .starG (notChar '>'), .lit ">".toList,
  .starL anyChar,
  .lit "<figcaption".toList, .starG (notChar '>'), .lit ">".toList,
  .group 3 (.starG (notChar '<')),
  .lit "</figcaption>".toList,
  .starL anyChar,
  .lit "</figure>".toList]

/-- The standalone-img regex:
`<img[^>]+(?:data-src|src)="\/images\/([^"]+)"[^>]*alt="([^"]*)"[^>]*>`. -/
def imgRegex : RE := reSeqList [
  .lit "<img".toList, .plusG (notChar '>'),
  .alt (.lit "data-src".toList) (.lit "src".toList),
  .lit ("=".toList ++ ['"']), .lit "/images/".toList,
  .group 1 (.plusG (notChar '"')), .lit ['"'],
  .starG (notChar '>'),
  .lit ("alt=".toList ++ ['"']),
  .group 2 (.starG (notChar '"')), .lit ['"'],
  .starG (notChar '>'), .lit ">".toList]

/-- `filename.replace(/\.[^/.]+$/, "")`: strip a final dot-extension whose
characters contain no dot or slash. -/
def stripExtension (filename : List Char) : List Char :=
  let tailNoDot := filename.reverse.takeWhile
    (fun c => decide (c ≠ '.') && decide (c ≠ '/'))
  if tailNoDot ≠ [] then
    match filename.reverse.drop tailNoDot.length with
    | '.' :: _ => filename.take (filename.length - tailNoDot.length - 1)
    | _ => filename
  else filename

/-- `extractImageReferences(htmlContent)`: collect every figure match (no
dedup among figures), then append each standalone `img` match whose slug is
not already present. -/
def extractImageReferences (htmlContent : List Char) : List ImageRef :=
  let figures := (reExecAll figureRegex (htmlContent.length + 1) htmlContent).map
    (fun caps =>
      let filename := capGet caps 1
      let alt := capGet caps 2
      let caption := capGet caps 3
      (⟨filename, stripExtension filename,
        if alt ≠ [] then alt else caption,
        caption, ImageRefType.figure⟩ : ImageRef))
  (reExecAll imgRegex (htmlContent.length + 1) htmlContent).foldl
    (fun images caps =>
      let filename := capGet caps 1
      let alt := capGet caps 2
      let slug := stripExtension filename
      if images.any (fun img => img.slug == slug) then images
      else images ++
        [(⟨filename, slug, alt, alt, ImageRefType.standalone⟩ : ImageRef)])
    figures

/-- The infobox fields `mergeInfoboxImageReferences` reads. -/
structure InfoboxData where
  image : Option (List Char)
  name : Option (List Char)
  title : Option (List Char)

/-- JavaScript `a || b` on possibly-absent strings (empty string is falsy). -/
def jsOrStr (v : Option (List Char)) (dflt : List Char) : List Char :=
  match v with
  | some s => if s ≠ [] then s else dflt
  | none => dflt

/-- The candidate list before deduplication: the extracted references, with
the infobox image unshifted to the front when present and not already
extracted (its slug is `nameWithoutExt.replace(/\s+/g, "_")`). -/
def mergeCandidates (htmlContent : List Char) (infoboxData : Option InfoboxData) :
    List ImageRef :=
  let images := extractImageReferences htmlContent
  match infoboxData with
  | none => images
  | some ib =>
    match ib.image with
    | none => images
    | some imageFilename =>
      if imageFilename ≠ [] then
        let nameWithoutExt := stripExtension imageFilename
        let slug := collapseWS '_' false nameWithoutExt
        if images.any (fun img => img.slug == slug) then images
        else
          (⟨imageFilename, slug,
            jsOrStr ib.name (jsOrStr ib.title slug),
            jsOrStr ib.name (jsOrStr ib.title slug),
            ImageRefType.infobox⟩ : ImageRef) :: images
      else images

/-- The final `filter` with a `seen` set: keep the first occurrence of each
slug. -/
def dedupBySlugAux : List (List Char) → List ImageRef → List ImageRef
  | _, [] => []
  | seen, img :: rest =>
    if img.slug ∈ seen then dedupBySlugAux seen rest
    else img :: dedupBySlugAux (img.slug :: seen) rest

/-- `mergeInfoboxImageReferences(htmlContent, infoboxData)`. -/
def mergeInfoboxImageReferences (htmlContent : List Char)
    (infoboxData : Option InfoboxData) : List ImageRef :=
  dedupBySlugAux [] (mergeCandidates htmlContent infoboxData)

/-- An HTML fragment with two image placeholders resolving to the same slug
`X`: a standalone `img` (alt "s") occurring first in document order, then a
figure (alt "f", caption "c"). -/
def figureAfterImgHtml : List Char :=
  ("<img data-src=".toList ++ '"' :: "/images/X".toList ++ '"' :: " alt=".toList
    ++ '"' :: "s".toList ++ '"' :: "><figure><img data-src=".toList
    ++ '"' :: "/images/X".toList ++ '"' :: " alt=".toList
    ++ '"' :: "f".toList ++ '"' :: "><figcaption>c</figcaption></figure>".toList)

/-- C3 (counterexample): on `figureAfterImgHtml` the extraction sees two
placeholders with slug `X` — the standalone one first in document order with
alt "s" — yet the single merged entry carries the figure's alt "f" and
caption "c", not the first occurrence's. -/
theorem c3_counterexample :
    mergeInfoboxImageReferences figureAfterImgHtml none =
      [⟨"X".toList, "X".toList, "f".toList, "c".toList, .figure⟩] ∧
    (reExecAll imgRegex (figureAfterImgHtml.length + 1) figureAfterImgHtml).map
      (fun caps => capGet caps 2) = ["s".toList, "f".toList] := by
  set_option maxRecDepth 100000 in decide

theorem dedupBySlugAux_mem_spec (l : List ImageRef) :
    ∀ (seen : List (List Char)) (r : ImageRef), r ∈ dedupBySlugAux seen l →
      r.slug ∉ seen ∧ l.find? (fun c => c.slug == r.slug) = some r := by
  induction l with
  | nil => intro seen r hr; simp [dedupBySlugAux] at hr
  | cons img rest ih =>
    intro seen r hr
    by_cases hs : img.slug ∈ seen
    · rw [dedupBySlugAux, if_pos hs] at hr
      obtain ⟨hnot, hfind⟩ := ih seen r hr
      refine ⟨hnot, ?_⟩
      rw [List.find?_cons]
      have hne : (img.slug == r.slug) = false := by
        rw [beq_eq_false_iff_ne]
        intro e
        exact hnot (e ▸ hs)
      rw [hne]
      exact hfind
    · rw [dedupBySlugAux, if_neg hs] at hr
      rcases List.mem_cons.mp hr with rfl | hr'
      · refine ⟨hs, ?_⟩
        rw [List.find?_cons]
        have : (r.slug == r.slug) = true := beq_self_eq_true r.slug
        rw [this]
      · obtain ⟨hnot, hfind⟩ := ih (img.slug :: seen) r hr'
        have hne : r.slug ≠ img.slug := fun e => hnot (by rw [e]; exact List.mem_cons_self _ _)
        refine ⟨fun hmem => hnot (List.mem_cons_of_mem _ hmem), ?_⟩
        rw [List.find?_cons]
        have : (img.slug == r.slug) = false := by
          rw [beq_eq_false_iff_ne]
          exact fun e => hne e.symm
        rw [this]
        exact hfind

theorem dedupBySlugAux_nodup (l : List ImageRef) :
    ∀ seen : List (List Char),
      ((dedupBySlugAux seen l).map ImageRef.slug).Nodup := by
  induction l with
  | nil => intro seen; simp [dedupBySlugAux]
  | cons img rest ih =>
    intro seen
    by_cases hs : img.slug ∈ seen
    · rw [dedupBySlugAux, if_pos hs]
      exact ih seen
    · rw [dedupBySlugAux, if_neg hs]
      rw [List.map_cons, List.nodup_cons]
      refine ⟨?_, ih (img.slug :: seen)⟩
      intro hmem
      obtain ⟨r, hr, hslug⟩ := List.mem_map.mp hmem
      obtain ⟨hnot, _⟩ := dedupBySlugAux_mem_spec rest (img.slug :: seen) r hr
      exact hnot (hslug ▸ List.mem_cons_self _ _)

theorem dedupBySlugAux_coverage (l : List ImageRef) :
    ∀ (seen : List (List Char)) (c : ImageRef), c ∈ l →
      c.slug ∈ seen ∨ ∃ r ∈ dedupBySlugAux seen l, r.slug = c.slug := by
  induction l with
  | nil => intro seen c hc; simp at hc
  | cons img rest ih =>
    intro seen c hc
    by_cases hs : img.slug ∈ seen
    · rw [dedupBySlugAux, if_pos hs]
      rcases List.mem_cons.mp hc with rfl | hc'
      · exact Or.inl hs
      · exact ih seen c hc'
    · rw [dedupBySlugAux, if_neg hs]
      rcases List.mem_cons.mp hc with rfl | hc'
      · exact Or.inr ⟨c, List.mem_cons_self _ _, rfl⟩
      · rcases ih (img.slug :: seen) c hc' with hmem | ⟨r, hr, hslug⟩
        · rcases List.mem_cons.mp hmem with heq | hmem'
          · exact Or.inr ⟨img, List.mem_cons_self _ _, heq.symm⟩
          · exact Or.inl hmem'
        · exact Or.inr ⟨r, List.mem_cons_of_mem _ hr, hslug⟩

/-- C3 (amended): the merged extraction returns at most one entry per derived
slug; the kept entry for a slug is the first entry with that slug in the
candidate order — the infobox image first, then figure placeholders in
document order, then standalone images in document order — and every
candidate slug is represented.  "First occurrence" is first in this candidate
order, not in document order: a figure's caption/alt wins over an earlier
standalone image with the same slug (see the counterexample); and before
deduplication `extractImageReferences` itself can return several figure
entries with the same slug. -/
theorem c3_merge_dedup_first_in_candidate_order (htmlContent : List Char)
    (infoboxData : Option InfoboxData) :
    (((mergeInfoboxImageReferences htmlContent infoboxData).map ImageRef.slug).Nodup) ∧
    (∀ r ∈ mergeInfoboxImageReferences htmlContent infoboxData,
      (mergeCandidates htmlContent infoboxData).find?
        (fun c => c.slug == r.slug) = some r) ∧
    (∀ c ∈ mergeCandidates htmlContent infoboxData,
      ∃ r ∈ mergeInfoboxImageReferences htmlContent infoboxData,
        r.slug = c.slug) := by
  refine ⟨dedupBySlugAux_nodup _ [], ?_, ?_⟩
  · intro r hr
    exact (dedupBySlugAux_mem_spec (mergeCandidates htmlContent infoboxData)
      [] r hr).2
  · intro c hc
    rcases dedupBySlugAux_coverage (mergeCandidates htmlContent infoboxData)
      [] c hc with hmem | h
    · simp at hmem
    · exact h

/-- Witness for C3 (amended), at the counterexample input: the merged list
has pairwise-distinct slugs and its single entry is the first candidate with
slug `X`. -/
theorem c3_merge_dedup_witness :
    (((mergeInfoboxImageReferences figureAfterImgHtml none).map ImageRef.slug).Nodup) ∧
    (mergeCandidates figureAfterImgHtml none).find?
      (fun c => c.slug == ("X".toList : List Char)) =
      some ⟨"X".toList, "X".toList, "f".toList, "c".toList, .figure⟩ := by
  have h := c3_merge_dedup_first_in_candidate_order figureAfterImgHtml none
  refine ⟨h.1, ?_⟩
  have := h.2.1 ⟨"X".toList, "X".toList, "f".toList, "c".toList, .figure⟩
    (by set_option maxRecDepth 100000 in decide)
  exact this
